import Mathlib

/-!
Verification of the multi-pass OCR pipeline of the book-scanner repository
(`src/unnamed/part_005`, the Tesseract-based OCR service).

The pixel-level stages (`applySharpen`, grayscale conversion, the median
denoiser, `calculateOtsuThreshold`, the contrast/binarize loop of
`preprocessImage`, `rotateImage`, `detectSkewAngle`, `deskewImage`) are
embedded as executable functions on an explicit image type.  JavaScript
numbers are embedded as exact rationals; `Uint8ClampedArray` stores are
embedded by clamping to `[0,255]` and rounding half to even.  The canvas
resampling performed by `ctx.drawImage` under a non-trivial transform, and
the transcendental functions `Math.tan`/`Math.sin`/`Math.cos`, are
environment-supplied and are taken as parameters of the geometric stages;
no claim below depends on their values.

The multi-pass orchestrator `recognizeTextMultiPass` is embedded
generically over the image type, with the recognition engine
(`worker.recognize`) as a function parameter returning `Option` — `none`
models a pass whose engine invocation threw and was caught by
`recognizeWithProgress`.
-/

namespace BookScanner

/-- RGBA sample as stored in an `ImageData` buffer (each channel a byte). -/
structure Pixel where
  r : ℕ
  g : ℕ
  b : ℕ
  a : ℕ
deriving DecidableEq, Repr

/-- Transparent black, the value `new ImageData(w, h)` fills the buffer with. -/
def zeroPixel : Pixel := Pixel.mk 0 0 0 0

/-- A canvas/`ImageData` buffer: dimensions plus the row-major pixel list. -/
structure Image where
  width : ℕ
  height : ℕ
  data : List Pixel
deriving DecidableEq, Repr

/-- Read the pixel at `(x, y)`; flat index `y*width + x` exactly as the
source indexes `data[(y*width+x)*4 + c]`. -/
def getPixel (img : Image) (x y : ℕ) : Pixel :=
  img.data.getD (y * img.width + x) zeroPixel

/-- Rounding used when a JavaScript number is stored into a
`Uint8ClampedArray` slot: clamp to `[0, 255]`, round half to even. -/
def jsClampByte (q : ℚ) : ℕ :=
  if q ≤ 0 then 0
  else if 255 ≤ q then 255
  else
    let f : ℤ := ⌊q⌋
    let frac : ℚ := q - (f : ℚ)
    (if frac < 1/2 then f
     else if 1/2 < frac then f + 1
     else if f % 2 = 0 then f else f + 1).toNat

/-- Insert into an ascending list (helper for the median sort). -/
def insertAsc (n : ℕ) : List ℕ → List ℕ
  | [] => [n]
  | m :: ms => if n ≤ m then n :: m :: ms else m :: insertAsc n ms

/-- Ascending sort, embedding the source's `neighbors.sort((a, b) => a - b)`. -/
def sortAsc (l : List ℕ) : List ℕ := l.foldr insertAsc []

/-- One output channel of the sharpening convolution at an interior pixel
`(x, y)`: the 3x3 kernel `[[0,-1,0],[-1,5,-1],[0,-1,0]]` applied to channel
`ch`, then `Math.min(255, Math.max(0, sum))`. -/
def sharpChan (img : Image) (x y : ℕ) (ch : Pixel → ℕ) : ℕ :=
  let s : ℤ :=
    0 * (ch (getPixel img (x-1) (y-1)) : ℤ) + (-1) * (ch (getPixel img x (y-1)) : ℤ) +
      0 * (ch (getPixel img (x+1) (y-1)) : ℤ) +
    (-1) * (ch (getPixel img (x-1) y) : ℤ) + 5 * (ch (getPixel img x y) : ℤ) +
      (-1) * (ch (getPixel img (x+1) y) : ℤ) +
    0 * (ch (getPixel img (x-1) (y+1)) : ℤ) + (-1) * (ch (getPixel img x (y+1)) : ℤ) +
      0 * (ch (getPixel img (x+1) (y+1)) : ℤ)
  (min 255 (max 0 s)).toNat

/-- `applySharpen` (part_005 lines 112-147): writes the convolved RGB plus
the input's alpha for every interior pixel of a freshly allocated
(zero-initialized) `ImageData`; border pixels are never written and stay
`(0,0,0,0)`. -/
def applySharpen (img : Image) : Image :=
  let w := img.width
  let h := img.height
  { width := w, height := h,
    data := (List.range (w * h)).map (fun idx =>
      let x := idx % w
      let y := idx / w
      if 1 ≤ x ∧ x + 1 < w ∧ 1 ≤ y ∧ y + 1 < h then
        Pixel.mk (sharpChan img x y Pixel.r) (sharpChan img x y Pixel.g)
          (sharpChan img x y Pixel.b) (getPixel img x y).a
      else zeroPixel) }

/-- Grayscale loop of `preprocessImage` (lines 234-237):
`gray = r*0.299 + g*0.587 + b*0.114` replicated into R, G, B. -/
def grayscaleStage (img : Image) : Image :=
  { width := img.width, height := img.height,
    data := img.data.map (fun p =>
      let gray : ℚ := (p.r : ℚ) * (299/1000) + (p.g : ℚ) * (587/1000) + (p.b : ℚ) * (114/1000)
      let g := jsClampByte gray
      Pixel.mk g g g p.a) }

/-- Denoise loop of `preprocessImage` (lines 240-257): each interior pixel
is replaced by the median (5th smallest of the 9-sample window) of the
snapshot taken before the pass; border pixels are left as they are. -/
def denoiseStage (img : Image) : Image :=
  let w := img.width
  let h := img.height
  { width := w, height := h,
    data := (List.range (w * h)).map (fun idx =>
      let x := idx % w
      let y := idx / w
      let p := getPixel img x y
      if 1 ≤ x ∧ x + 1 < w ∧ 1 ≤ y ∧ y + 1 < h then
        let neighbors : List ℕ :=
          [(getPixel img (x-1) (y-1)).r, (getPixel img x (y-1)).r, (getPixel img (x+1) (y-1)).r,
           (getPixel img (x-1) y).r, p.r, (getPixel img (x+1) y).r,
           (getPixel img (x-1) (y+1)).r, (getPixel img x (y+1)).r, (getPixel img (x+1) (y+1)).r]
        let median := (sortAsc neighbors).getD 4 0
        Pixel.mk median median median p.a
      else p) }

/-- Histogram bin `v` of `calculateOtsuThreshold` (lines 158-161): the
number of samples whose R value (`data[i]` for `i` a multiple of 4) is `v`. -/
def histR (data : List Pixel) (v : ℕ) : ℕ := data.countP (fun p => p.r == v)

/-- The `sum` accumulator of `calculateOtsuThreshold` (lines 163-166):
`sum = Σ i * histogram[i]` over `i < 256`. -/
def histSum (data : List Pixel) : ℕ := ∑ j ∈ Finset.range 256, j * histR data j

/-- The inter-class variance computed inside the Otsu loop (lines 181-185)
from the running totals `wB` and `sumB`:
`wB * wF * (mB - mF) * (mB - mF)` with `mB = sumB/wB`,
`mF = (sum - sumB)/wF`, `wF = total - wB`. -/
def otsuVariance (total sum wB sumB : ℕ) : ℚ :=
  let wF : ℕ := total - wB
  let mB : ℚ := (sumB : ℚ) / (wB : ℚ)
  let mF : ℚ := ((sum - sumB : ℕ) : ℚ) / ((wF : ℕ) : ℚ)
  (wB : ℚ) * (wF : ℚ) * (mB - mF) * (mB - mF)

/-- The scanning loop of `calculateOtsuThreshold` (lines 174-191).  `fuel`
counts the remaining candidate indices (the loop runs `i` from 0 to 255);
`continue` is the first branch, `break` the second, and the last two
branches track the strict maximum of the variance and the first threshold
attaining it. -/
def otsuGo (hist : ℕ → ℕ) (total sum : ℕ) :
    ℕ → ℕ → ℕ → ℕ → ℚ → ℕ → ℕ
  | 0, _, _, _, _, thr => thr
  | fuel+1, i, wB, sumB, maxVar, thr =>
    if wB + hist i = 0 then
      otsuGo hist total sum fuel (i+1) (wB + hist i) sumB maxVar thr
    else if total - (wB + hist i) = 0 then
      thr
    else if maxVar < otsuVariance total sum (wB + hist i) (sumB + i * hist i) then
      otsuGo hist total sum fuel (i+1) (wB + hist i) (sumB + i * hist i)
        (otsuVariance total sum (wB + hist i) (sumB + i * hist i)) i
    else
      otsuGo hist total sum fuel (i+1) (wB + hist i) (sumB + i * hist i) maxVar thr

/-- `calculateOtsuThreshold` (lines 154-194) on the R samples of the
buffer: `total = data.length / 4` is the pixel count. -/
def calculateOtsuThreshold (data : List Pixel) : ℕ :=
  otsuGo (histR data) data.length (histSum data) 256 0 0 0 0 0

/-- Body of the contrast-and-binarize loop of `preprocessImage`
(lines 266-279) for one pixel:
`factor = (259*(C*255+255))/(255*(259-C*255))`,
`enhanced = min(255, max(0, factor*(gray-128)+128))`, and every colour
channel becomes 255 when `enhanced > threshold`, else 0; alpha untouched. -/
def binarizePixel (contrastLevel : ℚ) (threshold : ℕ) (p : Pixel) : Pixel :=
  let gray : ℚ := (p.r : ℚ)
  let factor : ℚ := (259 * (contrastLevel * 255 + 255)) / (255 * (259 - contrastLevel * 255))
  let enhanced : ℚ := min 255 (max 0 (factor * (gray - 128) + 128))
  let finalValue : ℕ := if (threshold : ℚ) < enhanced then 255 else 0
  Pixel.mk finalValue finalValue finalValue p.a

/-- Contrast-and-binarize stage of `preprocessImage` (lines 266-279):
`binarizePixel` applied to every pixel of the buffer. -/
def contrastAndBinarize (contrastLevel : ℚ) (threshold : ℕ) (img : Image) : Image :=
  { width := img.width, height := img.height,
    data := img.data.map (binarizePixel contrastLevel threshold) }

/-- Options of `preprocessImage` (lines 202-208). -/
structure PreprocessOptions where
  sharpen : Bool
  adaptiveThreshold : Bool
  contrastLevel : ℚ
  denoise : Bool
deriving DecidableEq, Repr

/-- The defaults `{sharpen: true, adaptiveThreshold: true, contrastLevel:
1.5, denoise: true}`. -/
def stdOptions : PreprocessOptions := PreprocessOptions.mk true true (3/2) true

/-- `preprocessImage` (lines 202-283): optional sharpen, grayscale,
optional denoise, Otsu (or fixed 128) threshold, contrast + binarize. -/
def preprocessImage (img : Image) (opts : PreprocessOptions) : Image :=
  let i1 := if opts.sharpen then applySharpen img else img
  let i2 := grayscaleStage i1
  let i3 := if opts.denoise then denoiseStage i2 else i2
  let threshold := if opts.adaptiveThreshold then calculateOtsuThreshold i3.data else 128
  contrastAndBinarize opts.contrastLevel threshold i3

/-- `rotateImage` (lines 316-336).  Output dimensions are swapped exactly
for `degrees` in `{90, -90, 270}`; the drawn content comes from the
canvas `rotate`/`drawImage` resampling, supplied as `resample`. -/
def rotateImage (resample : Image → ℚ → List Pixel) (img : Image) (degrees : ℚ) : Image :=
  if degrees = 90 ∨ degrees = -90 ∨ degrees = 270 then
    { width := img.height, height := img.width, data := resample img degrees }
  else
    { width := img.width, height := img.height, data := resample img degrees }

/-- `Math.round`: floor of `x + 0.5` (this matches JavaScript on negative
half-integers as well). -/
def jsRound (q : ℚ) : ℤ := ⌊q + 1/2⌋

/-- Bin `j` of the sheared horizontal projection of dark pixels
(lines 354-367): the number of pixels with `r < 128` whose
`round(y + x * tan(rad))` lands on row `j` (out-of-range rows are
dropped by the `0 <= projY < height` guard). -/
def skewProjection (tanDeg : ℚ → ℚ) (img : Image) (angle : ℚ) (j : ℕ) : ℕ :=
  (List.range (img.width * img.height)).countP (fun idx =>
    let x := idx % img.width
    let y := idx / img.width
    decide ((getPixel img x y).r < 128 ∧ jsRound ((y : ℚ) + (x : ℚ) * tanDeg angle) = (j : ℤ)))

/-- Variance of the projection histogram at one candidate angle
(lines 369-371): mean and population variance over the `height` rows. -/
def skewVariance (tanDeg : ℚ → ℚ) (img : Image) (angle : ℚ) : ℚ :=
  let mean : ℚ :=
    ((∑ j ∈ Finset.range img.height, skewProjection tanDeg img angle j : ℕ) : ℚ) /
      (img.height : ℚ)
  (∑ j ∈ Finset.range img.height, ((skewProjection tanDeg img angle j : ℚ) - mean)^2) /
    (img.height : ℚ)

/-- `detectSkewAngle` (lines 343-380): scan angles -15, -14.5, ..., 15 and
keep the first angle of strictly maximal projection variance (initial
best 0).  `tanDeg` stands for `Math.tan((angle * Math.PI) / 180)`. -/
def detectSkewAngle (tanDeg : ℚ → ℚ) (img : Image) : ℚ :=
  let angles : List ℚ := List.map (fun k : ℕ => (-15 : ℚ) + (k : ℚ) / 2) (List.range 61)
  (angles.foldl (fun s angle =>
    if s.1 < skewVariance tanDeg img angle then (skewVariance tanDeg img angle, angle) else s)
    ((0 : ℚ), (0 : ℚ))).2

/-- `deskewImage` (lines 387-430): detect the skew angle; below the 0.5
degree threshold the input canvas is returned unchanged, otherwise a new
canvas sized `ceil(w*cos + h*sin)` by `ceil(w*sin + h*cos)` receives the
rotated content.  `sinDeg`/`cosDeg` stand for `Math.sin`/`Math.cos` of
`abs(angle * Math.PI / 180)` and `resample` for the canvas redraw. -/
def deskewImage (tanDeg sinDeg cosDeg : ℚ → ℚ)
    (resample : Image → ℚ → ℕ → ℕ → List Pixel) (img : Image) : Image :=
  let angle := detectSkewAngle tanDeg img
  if |angle| < 1/2 then img
  else
    let s := |sinDeg angle|
    let c := |cosDeg angle|
    let newW : ℕ := (⌈(img.width : ℚ) * c + (img.height : ℚ) * s⌉).toNat
    let newH : ℕ := (⌈(img.width : ℚ) * s + (img.height : ℚ) * c⌉).toNat
    { width := newW, height := newH, data := resample img angle newW newH }

/-- What one successful `worker.recognize` call contributes (text and
confidence; the word/line/block arrays play no role in the claims). -/
structure EngineOut where
  text : String
  confidence : ℚ
deriving DecidableEq, Repr

/-- A pass result as assembled by `recognizeWithProgress` (lines 490-509):
the engine output tagged with the pass label. -/
structure RecogResult where
  text : String
  confidence : ℚ
  method : String
deriving DecidableEq, Repr

/-- Length of `text.trim()`: drop whitespace from both ends and count the
remaining characters. -/
def trimmedLength (s : String) : ℕ :=
  ((s.data.dropWhile Char.isWhitespace).reverse.dropWhile Char.isWhitespace).length

/-- The score of line 559:
`(r.confidence || 0) * Math.min(1, (r.text?.trim().length || 0) / 10)`. -/
def score (r : RecogResult) : ℚ :=
  r.confidence * min 1 ((trimmedLength r.text : ℚ) / 10)

/-- Attach a pass label to an engine output. -/
def labeled (label : String) (e : EngineOut) : RecogResult :=
  RecogResult.mk e.text e.confidence label

section Orchestrator

variable {Img : Type}

/-- The successful results of the first one or three passes
(lines 516-535): "Original", then — when `tryPreprocessing` — the
"Preprocessed" and "Deskewed" passes.  A pass whose engine call threw
(`engine _ = none`) contributes nothing. -/
def earlyResults (engine : Img → Option EngineOut) (pre dsk : Img → Img)
    (img : Img) (tryPre : Bool) : List RecogResult :=
  let r1 := (engine img).map (labeled ("Original"))
  if tryPre then
    let p := pre img
    let r2 := (engine p).map (labeled ("Preprocessed"))
    let r3 := (engine (dsk p)).map (labeled ("Deskewed"))
    r1.toList ++ r2.toList ++ r3.toList
  else r1.toList

/-- The image the rotation passes rotate (lines 538-541): the freshly
preprocessed image when `results.length > 1` at that point, otherwise the
original. -/
def rotationBase (engine : Img → Option EngineOut) (pre dsk : Img → Img)
    (img : Img) (tryPre : Bool) : Img :=
  if 1 < (earlyResults engine pre dsk img tryPre).length then pre img else img

/-- All successful pass results in plan order (lines 516-549), appending —
when `tryRotations` — the "Rotated 90/180/270" passes run on the rotated
`rotationBase`. -/
def multiPassCandidates (engine : Img → Option EngineOut) (pre dsk : Img → Img)
    (rot : ℕ → Img → Img) (img : Img) (tryPre tryRot : Bool) : List RecogResult :=
  let early := earlyResults engine pre dsk img tryPre
  if tryRot then
    let base := rotationBase engine pre dsk img tryPre
    early ++ ([90, 180, 270].filterMap (fun d =>
      (engine (rot d base)).map (labeled ("Rotated " ++ toString d))))
  else early

/-- The fatal outcome of line 553 (`throw new Error('All OCR passes failed')`). -/
inductive OcrError where
  | allPassesFailed
deriving DecidableEq, Repr

/-- First element of maximal score: the result of the stable descending
sort of lines 557-565 followed by `scoredResults[0]`.  The fold keeps the
current element unless a strictly larger score appears later. -/
def bestOf (r : RecogResult) (rs : List RecogResult) : RecogResult :=
  rs.foldl (fun b x => if score b < score x then x else b) r

/-- `recognizeTextMultiPass` (lines 438-576), seen from its outcome: the
successful pass results are collected in plan order; an empty list is the
fatal `AllPassesFailedError`, otherwise the best-scoring earliest result
is returned. -/
def recognizeTextMultiPass (engine : Img → Option EngineOut) (pre dsk : Img → Img)
    (rot : ℕ → Img → Img) (img : Img) (tryPre tryRot : Bool) :
    Except OcrError RecogResult :=
  match multiPassCandidates engine pre dsk rot img tryPre tryRot with
  | [] => Except.error OcrError.allPassesFailed
  | r :: rs => Except.ok (bestOf r rs)

/-- Number of early passes that succeeded (used to state what
`results.length > 1` means in terms of the engine). -/
def successCount (engine : Img → Option EngineOut) (pre dsk : Img → Img)
    (img : Img) (tryPre : Bool) : ℕ :=
  (engine img).elim 0 (fun _ => 1) +
    (if tryPre then
      (engine (pre img)).elim 0 (fun _ => 1) +
        (engine (dsk (pre img))).elim 0 (fun _ => 1)
     else 0)

end Orchestrator

/-! Spec-side quantities for the Otsu threshold: cumulative histogram
weight and intensity mass below a candidate, and the inter-class variance
the spec describes.  Candidate `i` puts bins `0..i` in the background
class (the code adds `histogram[i]` to `wB` before computing the
variance), so the background weight at candidate `i` is `pW hist (i+1)`.
When one of the classes is empty the code computes no variance and can
never select the candidate; the spec-side variance is 0 there, matching
the code's initial `maxVariance = 0` that only a strictly positive
variance can beat. -/

/-- Cumulative histogram weight of the bins below `i`. -/
def pW (hist : ℕ → ℕ) (i : ℕ) : ℕ := ∑ j ∈ Finset.range i, hist j

/-- Cumulative intensity mass of the bins below `i`. -/
def pS (hist : ℕ → ℕ) (i : ℕ) : ℕ := ∑ j ∈ Finset.range i, j * hist j

/-- The spec's inter-class variance `wB * wF * (mB - mF)^2` at candidate
threshold `i` (0 when a class is empty). -/
def interVar (hist : ℕ → ℕ) (total sum : ℕ) (i : ℕ) : ℚ :=
  if pW hist (i+1) = 0 ∨ total ≤ pW hist (i+1) then 0
  else
    ((pW hist (i+1) : ℕ) : ℚ) * ((total - pW hist (i+1) : ℕ) : ℚ) *
      (((pS hist (i+1) : ℕ) : ℚ) / ((pW hist (i+1) : ℕ) : ℚ) -
        ((sum - pS hist (i+1) : ℕ) : ℚ) / ((total - pW hist (i+1) : ℕ) : ℚ))^2

/-! Spec-side statement of the contrast formula (for comparison with the
code's binarize loop) and concrete inputs used by witnesses and
counterexamples. -/

/-- The contrast factor exactly as the spec writes it:
`factor = (259·(C·255+255))/(255·(259−C·255))`. -/
def specContrastFactor (C : ℚ) : ℚ := (259 * (C * 255 + 255)) / (255 * (259 - C * 255))

/-- The enhanced value exactly as the spec writes it:
`enhanced = clamp(factor·(gray−128)+128, 0, 255)`. -/
def specEnhanced (C gray : ℚ) : ℚ := min 255 (max 0 (specContrastFactor C * (gray - 128) + 128))

/-- Opaque grey pixel of intensity `v`. -/
def greyPix (v : ℕ) : Pixel := Pixel.mk v v v 255

/-- A buffer whose histogram is two separated spikes: two samples at 100
and two at 200. -/
def csTwoSpike : List Pixel := [greyPix 100, greyPix 100, greyPix 200, greyPix 200]

/-- A uniform buffer of intensity 200 (2 by 2). -/
def csUniform200 : Image := Image.mk 2 2 (List.replicate 4 (greyPix 200))

/-- A uniform buffer of intensity 100 (2 by 2). -/
def csUniform100 : Image := Image.mk 2 2 (List.replicate 4 (greyPix 100))

/-- A 3 by 3 buffer of constant value 7 with alpha 9, for the sharpen
border behaviour. -/
def csSharpImg : Image := Image.mk 3 3 (List.replicate 9 (Pixel.mk 7 7 7 9))

/-- An all-white 2 by 2 buffer (no dark pixels). -/
def csWhiteImg : Image := Image.mk 2 2 (List.replicate 4 (greyPix 255))

/-- A 1 by 1 buffer whose single pixel has R 200 and alpha 7. -/
def csOnePix : Image := Image.mk 1 1 [Pixel.mk 200 0 0 7]

/-- Synthetic result with confidence 95 and text length 1. -/
def csR1 : RecogResult := RecogResult.mk "a" 95 "m1"

/-- Synthetic result with confidence 60 and text length 50. -/
def csR2 : RecogResult := RecogResult.mk ("xxxxxxxxxxxxxxxxxxxxxxxxxxxxxxxxxxxxxxxxxxxxxxxxxx") 60 "m2"

/-- Synthetic result with confidence 80 and text length 20. -/
def csR3 : RecogResult := RecogResult.mk ("xxxxxxxxxxxxxxxxxxxx") 80 "m3"

/-- The score exactly as the spec/claim words it:
`confidence × min(1, textLength/10)` with `textLength` the raw length of
the text.  The code instead uses the trimmed length
(`text.trim().length`); the two diverge on whitespace-padded texts. -/
def specScore (r : RecogResult) : ℚ :=
  r.confidence * min 1 ((r.text.length : ℚ) / 10)

/-- Result with confidence 90 whose text is "ab" followed by 8 spaces:
raw length 10 (spec-side score 90), trimmed length 2 (code score 18). -/
def csRPad : RecogResult := RecogResult.mk ("ab        ") 90 "Original"

/-- Result with confidence 60 and 10 non-blank characters: both scores 60. -/
def csRTen : RecogResult := RecogResult.mk ("cccccccccc") 60 "Preprocessed"

/-- Engine stub over numbered images producing `csRPad` on the original
image (0), `csRTen` on the preprocessed image (1), and failing on the
deskewed image (2). -/
def csEngineC1 : ℕ → Option EngineOut :=
  fun n =>
    if n = 0 then some (EngineOut.mk "ab        " 90)
    else if n = 1 then some (EngineOut.mk "cccccccccc" 60)
    else none

/-- Engine stub over numbered images: succeeds only on image 0. -/
def csEngine0 : ℕ → Option EngineOut :=
  fun n => if n = 0 then some (EngineOut.mk "hello" 90) else none

/-- Engine stub that always succeeds. -/
def csEngineOk : ℕ → Option EngineOut :=
  fun _ => some (EngineOut.mk "abcdefghij" 50)

/-- Engine stub that always throws. -/
def csEngineFail : ℕ → Option EngineOut := fun _ => none

/-- Numbered-image preprocess stub (maps every image to image 1). -/
def csPre : ℕ → ℕ := fun _ => 1

/-- Numbered-image deskew stub (maps every image to image 2). -/
def csDsk : ℕ → ℕ := fun _ => 2

/-- Numbered-image rotation stub (keeps the image). -/
def csRot : ℕ → ℕ → ℕ := fun _ n => n

/-- Zero stub for `Math.tan` / `Math.sin` / `Math.cos`. -/
def csZeroFun : ℚ → ℚ := fun _ => 0

/-- Empty resample stub for `deskewImage`. -/
def csResample4 : Image → ℚ → ℕ → ℕ → List Pixel := fun _ _ _ _ => []

/-- Empty resample stub for `rotateImage`. -/
def csResample2 : Image → ℚ → List Pixel := fun _ _ => []

theorem pW_succ (hist : ℕ → ℕ) (i : ℕ) : pW hist (i+1) = pW hist i + hist i :=
  Finset.sum_range_succ hist i

theorem pS_succ (hist : ℕ → ℕ) (i : ℕ) : pS hist (i+1) = pS hist i + i * hist i :=
  Finset.sum_range_succ (fun j => j * hist j) i

theorem pW_mono (hist : ℕ → ℕ) {i j : ℕ} (h : i ≤ j) : pW hist i ≤ pW hist j :=
  Finset.sum_le_sum_of_subset (Finset.range_subset.mpr h)

theorem interVar_nonneg (hist : ℕ → ℕ) (total sum i : ℕ) :
    0 ≤ interVar hist total sum i := by
  unfold interVar
  split
  · exact le_refl 0
  · positivity

theorem interVar_eq_otsuVariance (hist : ℕ → ℕ) (total sum i : ℕ)
    (h1 : pW hist (i+1) ≠ 0) (h2 : ¬ total ≤ pW hist (i+1)) :
    interVar hist total sum i = otsuVariance total sum (pW hist (i+1)) (pS hist (i+1)) := by
  unfold interVar otsuVariance
  rw [if_neg (by tauto)]
  ring

theorem interVar_zero_of_total_le (hist : ℕ → ℕ) (total sum : ℕ) {i : ℕ}
    (h : total ≤ pW hist (i+1)) : interVar hist total sum i = 0 :=
  if_pos (Or.inr h)

theorem interVar_zero_of_empty (hist : ℕ → ℕ) (total sum : ℕ) {i : ℕ}
    (h : pW hist (i+1) = 0) : interVar hist total sum i = 0 :=
  if_pos (Or.inl h)

/-- Invariant-passing characterization of the Otsu scanning loop: from a
state whose `maxVar` dominates the variances of the candidates already
scanned and whose `thr` is the first candidate attaining `maxVar`, the
loop returns the first candidate of maximal spec-side variance. -/
theorem otsuGo_char (hist : ℕ → ℕ) (total sum : ℕ) :
    ∀ (fuel i : ℕ) (maxVar : ℚ) (thr : ℕ),
      i + fuel = 256 →
      0 ≤ maxVar →
      (∀ j, j < i → interVar hist total sum j ≤ maxVar) →
      ((maxVar = 0 ∧ thr = 0) ∨
        (thr < i ∧ interVar hist total sum thr = maxVar ∧
          ∀ j, j < thr → interVar hist total sum j < maxVar)) →
      (otsuGo hist total sum fuel i (pW hist i) (pS hist i) maxVar thr ≤ 255 ∧
       (∀ j, j < 256 → interVar hist total sum j ≤
          interVar hist total sum
            (otsuGo hist total sum fuel i (pW hist i) (pS hist i) maxVar thr)) ∧
       (∀ j, j < otsuGo hist total sum fuel i (pW hist i) (pS hist i) maxVar thr →
          interVar hist total sum j <
          interVar hist total sum
            (otsuGo hist total sum fuel i (pW hist i) (pS hist i) maxVar thr))) := by
  intro fuel
  induction fuel with
  | zero =>
    intro i maxVar thr hif h0 hle hthr
    simp only [otsuGo]
    have hi : i = 256 := by omega
    subst hi
    rcases hthr with ⟨hm0, ht0⟩ | ⟨hlt, heq, hmax⟩
    · subst hm0
      subst ht0
      have hall : ∀ j, j < 256 → interVar hist total sum j = 0 := fun j hj =>
        le_antisymm (hle j hj) (interVar_nonneg hist total sum j)
      refine ⟨by omega, fun j hj => ?_, fun j hj => absurd hj (by omega)⟩
      rw [hall j hj, hall 0 (by omega)]
    · exact ⟨by omega, fun j hj => heq ▸ hle j hj, fun j hj => heq ▸ hmax j hj⟩
  | succ fuel ih =>
    intro i maxVar thr hif h0 hle hthr
    have hi : i < 256 := by omega
    simp only [otsuGo]
    by_cases hc1 : pW hist i + hist i = 0
    · rw [if_pos hc1]
      have hp : pW hist (i+1) = 0 := by rw [pW_succ]; exact hc1
      have hh0 : hist i = 0 := by omega
      have hps : pS hist i = pS hist (i+1) := by rw [pS_succ, hh0]; ring
      rw [← pW_succ, hps]
      refine ih (i+1) maxVar thr (by omega) h0 (fun j hj => ?_) ?_
      · rcases Nat.lt_succ_iff_lt_or_eq.mp hj with h | h
        · exact hle j h
        · subst h
          rw [interVar_zero_of_empty hist total sum hp]
          exact h0
      · rcases hthr with h | ⟨hlt, heq, hmax⟩
        · exact Or.inl h
        · exact Or.inr ⟨by omega, heq, hmax⟩
    · rw [if_neg hc1]
      rw [← pW_succ] at hc1 ⊢
      by_cases hc2 : total - pW hist (i+1) = 0
      · rw [if_pos hc2]
        have htot : total ≤ pW hist (i+1) := by omega
        have hzero : ∀ j, i ≤ j → interVar hist total sum j = 0 := by
          intro j hj
          exact interVar_zero_of_total_le hist total sum
            (le_trans htot (pW_mono hist (by omega)))
        rcases hthr with ⟨hm0, ht0⟩ | ⟨hlt, heq, hmax⟩
        · subst hm0
          subst ht0
          have hall : ∀ j, interVar hist total sum j = 0 := by
            intro j
            rcases lt_or_le j i with h | h
            · exact le_antisymm (hle j h) (interVar_nonneg hist total sum j)
            · exact hzero j h
          refine ⟨by omega, fun j hj => ?_, fun j hj => absurd hj (by omega)⟩
          rw [hall j, hall 0]
        · refine ⟨by omega, fun j hj => ?_, fun j hj => heq ▸ hmax j hj⟩
          rw [heq]
          rcases lt_or_le j i with h | h
          · exact hle j h
          · rw [hzero j h]; exact h0
      · rw [if_neg hc2]
        have hnt : ¬ total ≤ pW hist (i+1) := by omega
        have hvi : interVar hist total sum i =
            otsuVariance total sum (pW hist (i+1)) (pS hist (i+1)) :=
          interVar_eq_otsuVariance hist total sum i hc1 hnt
        rw [← pS_succ]
        by_cases hc3 : maxVar < otsuVariance total sum (pW hist (i+1)) (pS hist (i+1))
        · rw [if_pos hc3]
          refine ih (i+1) _ i (by omega) (le_of_lt (lt_of_le_of_lt h0 hc3))
            (fun j hj => ?_) (Or.inr ⟨by omega, hvi, fun j hj => ?_⟩)
          · rcases Nat.lt_succ_iff_lt_or_eq.mp hj with h | h
            · exact le_of_lt (lt_of_le_of_lt (hle j h) hc3)
            · subst h; exact le_of_eq hvi
          · exact lt_of_le_of_lt (hle j hj) hc3
        · rw [if_neg hc3]
          refine ih (i+1) maxVar thr (by omega) h0 (fun j hj => ?_) ?_
          · rcases Nat.lt_succ_iff_lt_or_eq.mp hj with h | h
            · exact hle j h
            · subst h; rw [hvi]; exact not_lt.mp hc3
          · rcases hthr with h | ⟨hlt, heq, hmax⟩
            · exact Or.inl h
            · exact Or.inr ⟨by omega, heq, hmax⟩

/-- The characterization at the function boundary: the returned threshold
is in `[0, 255]`, its spec-side inter-class variance is maximal among all
candidates `0..255`, and every lower candidate has strictly smaller
variance. -/
theorem otsu_char (data : List Pixel) :
    calculateOtsuThreshold data ≤ 255 ∧
    (∀ j, j < 256 → interVar (histR data) data.length (histSum data) j ≤
      interVar (histR data) data.length (histSum data) (calculateOtsuThreshold data)) ∧
    (∀ j, j < calculateOtsuThreshold data →
      interVar (histR data) data.length (histSum data) j <
      interVar (histR data) data.length (histSum data) (calculateOtsuThreshold data)) := by
  have h := otsuGo_char (histR data) data.length (histSum data) 256 0 0 0
    (by omega) (le_refl 0) (fun j hj => absurd hj (by omega)) (Or.inl ⟨rfl, rfl⟩)
  have hw : pW (histR data) 0 = 0 := by simp [pW]
  have hs : pS (histR data) 0 = 0 := by simp [pS]
  rw [hw, hs] at h
  exact h

/-! Histogram computations for two families of inputs: a histogram
concentrated on two separated spikes `a < b` (the sharpest form of a
bimodal histogram) and a uniform histogram concentrated on a single
intensity `v`. -/

theorem histR_other (l : List Pixel) (a b : ℕ)
    (hall : ∀ p ∈ l, p.r = a ∨ p.r = b) (j : ℕ) (hja : j ≠ a) (hjb : j ≠ b) :
    histR l j = 0 := by
  refine List.countP_eq_zero.mpr (fun p hp => ?_)
  rcases hall p hp with h | h <;> simp [h, hja.symm, hjb.symm]

theorem length_twospike (l : List Pixel) (a b : ℕ) (hab : a ≠ b)
    (hall : ∀ p ∈ l, p.r = a ∨ p.r = b) :
    l.length = histR l a + histR l b := by
  induction l with
  | nil => rfl
  | cons p l ih =>
    have hp := hall p (List.mem_cons_self p l)
    have ih' := ih (fun q hq => hall q (List.mem_cons_of_mem p hq))
    rcases hp with h | h <;>
      simp [histR, List.countP_cons, h, hab, Ne.symm hab] at ih' ⊢ <;> omega

theorem pW_twospike (l : List Pixel) (a b : ℕ) (hab : a ≠ b)
    (hall : ∀ p ∈ l, p.r = a ∨ p.r = b) (i : ℕ) :
    pW (histR l) i =
      (if a < i then histR l a else 0) + (if b < i then histR l b else 0) := by
  have hpt : ∀ j, histR l j =
      (if j = a then histR l a else 0) + (if j = b then histR l b else 0) := by
    intro j
    by_cases hja : j = a
    · subst hja
      simp [hab]
    · by_cases hjb : j = b
      · subst hjb
        simp [hja]
      · simp [hja, hjb, histR_other l a b hall j hja hjb]
  unfold pW
  rw [Finset.sum_congr rfl (fun j _ => hpt j), Finset.sum_add_distrib,
    Finset.sum_ite_eq' (Finset.range i) a (fun _ => histR l a),
    Finset.sum_ite_eq' (Finset.range i) b (fun _ => histR l b)]
  simp [Finset.mem_range]

theorem pS_twospike (l : List Pixel) (a b : ℕ) (hab : a ≠ b)
    (hall : ∀ p ∈ l, p.r = a ∨ p.r = b) (i : ℕ) :
    pS (histR l) i =
      (if a < i then a * histR l a else 0) + (if b < i then b * histR l b else 0) := by
  have hpt : ∀ j, j * histR l j =
      (if j = a then a * histR l a else 0) + (if j = b then b * histR l b else 0) := by
    intro j
    by_cases hja : j = a
    · subst hja
      simp [hab]
    · by_cases hjb : j = b
      · subst hjb
        simp [hja]
      · simp [hja, hjb, histR_other l a b hall j hja hjb]
  unfold pS
  rw [Finset.sum_congr rfl (fun j _ => hpt j), Finset.sum_add_distrib,
    Finset.sum_ite_eq' (Finset.range i) a (fun _ => a * histR l a),
    Finset.sum_ite_eq' (Finset.range i) b (fun _ => b * histR l b)]
  simp [Finset.mem_range]

theorem histSum_twospike (l : List Pixel) (a b : ℕ) (hab : a ≠ b)
    (ha : a < 256) (hb : b < 256) (hall : ∀ p ∈ l, p.r = a ∨ p.r = b) :
    histSum l = a * histR l a + b * histR l b := by
  have h : histSum l = pS (histR l) 256 := rfl
  rw [h, pS_twospike l a b hab hall 256, if_pos ha, if_pos hb]

theorem interVar_twospike (l : List Pixel) (a b i : ℕ) (hab : a < b) (hb : b ≤ 255)
    (hall : ∀ p ∈ l, p.r = a ∨ p.r = b)
    (hna : 0 < histR l a) (hnb : 0 < histR l b)
    (hai : a ≤ i) (hib : i < b) :
    interVar (histR l) l.length (histSum l) i =
      ((histR l a : ℕ) : ℚ) * ((histR l b : ℕ) : ℚ) * (((b : ℕ) : ℚ) - ((a : ℕ) : ℚ))^2 := by
  have hab' : a ≠ b := Nat.ne_of_lt hab
  have hWi : pW (histR l) (i+1) = histR l a := by
    rw [pW_twospike l a b hab' hall (i+1), if_pos (by omega), if_neg (by omega)]
    omega
  have hSi : pS (histR l) (i+1) = a * histR l a := by
    rw [pS_twospike l a b hab' hall (i+1), if_pos (by omega), if_neg (by omega)]
    omega
  have hlen : l.length = histR l a + histR l b := length_twospike l a b hab' hall
  have hsum : histSum l = a * histR l a + b * histR l b :=
    histSum_twospike l a b hab' (by omega) (by omega) hall
  unfold interVar
  rw [hWi, hSi, hlen, hsum, if_neg (by omega)]
  have h1 : histR l a + histR l b - histR l a = histR l b := by omega
  have h2 : a * histR l a + b * histR l b - a * histR l a = b * histR l b := by omega
  rw [h1, h2]
  have hqa : ((histR l a : ℕ) : ℚ) ≠ 0 := by positivity
  have hqb : ((histR l b : ℕ) : ℚ) ≠ 0 := by positivity
  push_cast
  rw [mul_div_assoc, mul_div_assoc, div_self hqa, div_self hqb]
  ring

/-- The Otsu threshold of a two-spike histogram is the lower spike: every
candidate from `a` through `b-1` attains the same maximal variance, and
the loop keeps the first one. -/
theorem otsu_twospike (l : List Pixel) (a b : ℕ) (hab : a < b) (hb : b ≤ 255)
    (hall : ∀ p ∈ l, p.r = a ∨ p.r = b)
    (hna : 0 < histR l a) (hnb : 0 < histR l b) :
    calculateOtsuThreshold l = a := by
  obtain ⟨ht255, hmax, hleast⟩ := otsu_char l
  set t := calculateOtsuThreshold l with hdef
  have hab' : a ≠ b := Nat.ne_of_lt hab
  set K : ℚ := ((histR l a : ℕ) : ℚ) * ((histR l b : ℕ) : ℚ) *
    (((b : ℕ) : ℚ) - ((a : ℕ) : ℚ))^2 with hK
  have hKpos : 0 < K := by
    have hba : ((a : ℕ) : ℚ) < ((b : ℕ) : ℚ) := by exact_mod_cast hab
    have : (0 : ℚ) < (((b : ℕ) : ℚ) - ((a : ℕ) : ℚ))^2 := pow_pos (sub_pos.mpr hba) 2
    have h1 : (0 : ℚ) < ((histR l a : ℕ) : ℚ) := by exact_mod_cast hna
    have h2 : (0 : ℚ) < ((histR l b : ℕ) : ℚ) := by exact_mod_cast hnb
    exact mul_pos (mul_pos h1 h2) this
  have hivA : interVar (histR l) l.length (histSum l) a = K :=
    interVar_twospike l a b a hab hb hall hna hnb (le_refl a) hab
  have htK : K ≤ interVar (histR l) l.length (histSum l) t := by
    rw [← hivA]
    exact hmax a (by omega)
  have hta : a ≤ t := by
    by_contra h
    push_neg at h
    have hzero : interVar (histR l) l.length (histSum l) t = 0 := by
      apply interVar_zero_of_empty
      rw [pW_twospike l a b hab' hall (t+1), if_neg (by omega), if_neg (by omega)]
    rw [hzero] at htK
    exact absurd (lt_of_lt_of_le hKpos htK) (lt_irrefl 0)
  have htb : t < b := by
    by_contra h
    push_neg at h
    have hzero : interVar (histR l) l.length (histSum l) t = 0 := by
      apply interVar_zero_of_total_le
      rw [pW_twospike l a b hab' hall (t+1), if_pos (by omega), if_pos (by omega),
        length_twospike l a b hab' hall]
    rw [hzero] at htK
    exact absurd (lt_of_lt_of_le hKpos htK) (lt_irrefl 0)
  have hivT : interVar (histR l) l.length (histSum l) t = K :=
    interVar_twospike l a b t hab hb hall hna hnb hta htb
  by_contra hne
  have hlt : a < t := lt_of_le_of_ne hta (Ne.symm hne)
  have := hleast a hlt
  rw [hivA, hivT] at this
  exact absurd this (lt_irrefl K)

theorem pW_uniform (l : List Pixel) (v : ℕ) (hall : ∀ p ∈ l, p.r = v) (i : ℕ) :
    pW (histR l) i = if v < i then l.length else 0 := by
  have hpt : ∀ j, histR l j = if j = v then l.length else 0 := by
    intro j
    by_cases hjv : j = v
    · subst hjv
      simp only [if_pos rfl]
      exact List.countP_eq_length.mpr (fun p hp => by simp [hall p hp])
    · simp only [if_neg hjv]
      exact List.countP_eq_zero.mpr (fun p hp => by simp [hall p hp, Ne.symm hjv])
  unfold pW
  rw [Finset.sum_congr rfl (fun j _ => hpt j),
    Finset.sum_ite_eq' (Finset.range i) v (fun _ => l.length)]
  simp [Finset.mem_range]

/-- On a uniform input the Otsu loop records no variance (the foreground
class is empty from the single populated bin onwards) and returns 0. -/
theorem otsu_uniform (l : List Pixel) (v : ℕ) (hall : ∀ p ∈ l, p.r = v) :
    calculateOtsuThreshold l = 0 := by
  obtain ⟨ht255, hmax, hleast⟩ := otsu_char l
  have hallzero : ∀ j, interVar (histR l) l.length (histSum l) j = 0 := by
    intro j
    by_cases hj : v < j + 1
    · apply interVar_zero_of_total_le
      rw [pW_uniform l v hall (j+1), if_pos hj]
    · apply interVar_zero_of_empty
      rw [pW_uniform l v hall (j+1), if_neg hj]
  by_contra hne
  have h0 : 0 < calculateOtsuThreshold l := Nat.pos_of_ne_zero hne
  have := hleast 0 h0
  rw [hallzero 0, hallzero (calculateOtsuThreshold l)] at this
  exact absurd this (lt_irrefl 0)

/-! Selection: the stable descending sort by score followed by taking the
first element returns the earliest result of maximal score; the fold
`bestOf` realizes exactly that element. -/

theorem score_bestOf_le (r : RecogResult) (rs : List RecogResult) :
    score r ≤ score (bestOf r rs) := by
  induction rs generalizing r with
  | nil => exact le_refl _
  | cons x rs ih =>
    simp only [bestOf, List.foldl] at ih ⊢
    by_cases h : score r < score x
    · rw [if_pos h]
      exact le_trans (le_of_lt h) (ih x)
    · rw [if_neg h]
      exact ih r

theorem bestOf_split (r : RecogResult) (rs : List RecogResult) :
    ∃ l1 l2, r :: rs = l1 ++ bestOf r rs :: l2 ∧
      (∀ x ∈ l1, score x < score (bestOf r rs)) ∧
      (∀ x ∈ l2, score x ≤ score (bestOf r rs)) := by
  induction rs generalizing r with
  | nil => exact ⟨[], [], rfl, by simp, by simp⟩
  | cons x rs ih =>
    have hstep : bestOf r (x :: rs) = bestOf (if score r < score x then x else r) rs := rfl
    by_cases h : score r < score x
    · rw [hstep, if_pos h]
      obtain ⟨l1, l2, heq, h1, h2⟩ := ih x
      refine ⟨r :: l1, l2, ?_, ?_, h2⟩
      · rw [List.cons_append, ← heq]
      · intro y hy
        rcases List.mem_cons.mp hy with h' | h'
        · subst h'
          exact lt_of_lt_of_le h (score_bestOf_le x rs)
        · exact h1 y h'
    · rw [hstep, if_neg h]
      obtain ⟨l1, l2, heq, h1, h2⟩ := ih r
      cases l1 with
      | nil =>
        rw [List.nil_append] at heq
        obtain ⟨hb, hl⟩ := List.cons_eq_cons.mp heq
        refine ⟨[], x :: l2, ?_, by simp, ?_⟩
        · rw [List.nil_append, ← hb, ← hl]
        · intro y hy
          rcases List.mem_cons.mp hy with h' | h'
          · subst h'
            rw [← hb]
            exact not_lt.mp h
          · exact h2 y h'
      | cons aa l1' =>
        rw [List.cons_append] at heq
        obtain ⟨hr, hrs⟩ := List.cons_eq_cons.mp heq
        have hra : score r < score (bestOf r rs) := by
          have h' := h1 aa (List.mem_cons_self aa l1')
          rw [← hr] at h'
          exact h'
        refine ⟨r :: x :: l1', l2, ?_, ?_, h2⟩
        · rw [List.cons_append, List.cons_append, ← hrs]
        · intro y hy
          rcases List.mem_cons.mp hy with h' | h'
          · subst h'
            exact hra
          · rcases List.mem_cons.mp h' with h'' | h''
            · subst h''
              exact lt_of_le_of_lt (not_lt.mp h) hra
            · exact h1 y (List.mem_cons_of_mem aa h'')

theorem optionToList_eq_nil {α : Type} (o : Option α) : o.toList = [] ↔ o = none := by
  cases o <;> simp

section OrchestratorLemmas

variable {Img : Type}

theorem earlyResults_eq_nil_iff (engine : Img → Option EngineOut) (pre dsk : Img → Img)
    (img : Img) (tryPre : Bool) :
    earlyResults engine pre dsk img tryPre = [] ↔
      (engine img = none ∧
        (tryPre = true → engine (pre img) = none ∧ engine (dsk (pre img)) = none)) := by
  cases tryPre <;>
    simp [earlyResults, optionToList_eq_nil, Option.map_eq_none']

theorem earlyResults_length (engine : Img → Option EngineOut) (pre dsk : Img → Img)
    (img : Img) (tryPre : Bool) :
    (earlyResults engine pre dsk img tryPre).length =
      successCount engine pre dsk img tryPre := by
  cases tryPre <;>
    simp only [earlyResults, successCount] <;>
    rcases h1 : engine img with _ | e1 <;>
    rcases h2 : engine (pre img) with _ | e2 <;>
    rcases h3 : engine (dsk (pre img)) with _ | e3 <;>
    simp [h1, h2, h3]

/-- The rotation passes work on the freshly preprocessed image exactly
when strictly more than one of the earlier passes succeeded. -/
theorem rotationBase_eq (engine : Img → Option EngineOut) (pre dsk : Img → Img)
    (img : Img) (tryPre : Bool) :
    rotationBase engine pre dsk img tryPre =
      if 1 < successCount engine pre dsk img tryPre then pre img else img := by
  unfold rotationBase
  rw [earlyResults_length]

theorem multiPassCandidates_eq_nil_iff (engine : Img → Option EngineOut)
    (pre dsk : Img → Img) (rot : ℕ → Img → Img) (img : Img) (tryPre tryRot : Bool) :
    multiPassCandidates engine pre dsk rot img tryPre tryRot = [] ↔
      (engine img = none ∧
        (tryPre = true → engine (pre img) = none ∧ engine (dsk (pre img)) = none) ∧
        (tryRot = true → engine (rot 90 img) = none ∧ engine (rot 180 img) = none ∧
          engine (rot 270 img) = none)) := by
  cases tryRot
  · simp only [multiPassCandidates, Bool.false_eq_true, if_false]
    rw [earlyResults_eq_nil_iff]
    simp
  · constructor
    · intro h
      simp only [multiPassCandidates, if_true] at h
      rw [List.append_eq_nil] at h
      obtain ⟨he, hf⟩ := h
      obtain ⟨h1, h2⟩ := (earlyResults_eq_nil_iff engine pre dsk img tryPre).mp he
      have hbase : rotationBase engine pre dsk img tryPre = img := by
        unfold rotationBase
        rw [he]
        simp
      rw [hbase] at hf
      rw [List.filterMap_eq_nil_iff] at hf
      refine ⟨h1, h2, fun _ => ⟨?_, ?_, ?_⟩⟩
      · exact Option.map_eq_none'.mp (hf 90 (by simp))
      · exact Option.map_eq_none'.mp (hf 180 (by simp))
      · exact Option.map_eq_none'.mp (hf 270 (by simp))
    · rintro ⟨h1, h2, h3⟩
      have he : earlyResults engine pre dsk img tryPre = [] :=
        (earlyResults_eq_nil_iff engine pre dsk img tryPre).mpr ⟨h1, h2⟩
      have hbase : rotationBase engine pre dsk img tryPre = img := by
        unfold rotationBase
        rw [he]
        simp
      obtain ⟨h90, h180, h270⟩ := h3 rfl
      simp [multiPassCandidates, he, hbase, h90, h180, h270]

theorem recognizeTextMultiPass_error_iff (engine : Img → Option EngineOut)
    (pre dsk : Img → Img) (rot : ℕ → Img → Img) (img : Img) (tryPre tryRot : Bool) :
    recognizeTextMultiPass engine pre dsk rot img tryPre tryRot =
        Except.error OcrError.allPassesFailed ↔
      multiPassCandidates engine pre dsk rot img tryPre tryRot = [] := by
  cases hc : multiPassCandidates engine pre dsk rot img tryPre tryRot <;>
    simp [recognizeTextMultiPass, hc]

end OrchestratorLemmas

/-! Index bookkeeping for the stages written as a map over
`List.range (width * height)`. -/

theorem rangeMap_getD (n : ℕ) (f : ℕ → Pixel) (i : ℕ) (hi : i < n) :
    ((List.range n).map f).getD i zeroPixel = f i := by
  rw [List.getD_eq_getElem?_getD, List.getElem?_map, List.getElem?_range hi]
  rfl

theorem index_lt (w h x y : ℕ) (hx : x < w) (hy : y < h) : y * w + x < w * h :=
  calc y * w + x < y * w + w := by omega
    _ = (y + 1) * w := by ring
    _ ≤ h * w := Nat.mul_le_mul_right w (Nat.succ_le_of_lt hy)
    _ = w * h := Nat.mul_comm h w

theorem index_decode_x (w x y : ℕ) (hx : x < w) : (y * w + x) % w = x := by
  rw [Nat.add_comm, Nat.add_mul_mod_self_right]
  exact Nat.mod_eq_of_lt hx

theorem index_decode_y (w x y : ℕ) (hx : x < w) : (y * w + x) / w = y := by
  rw [Nat.add_comm, Nat.add_mul_div_right x y (by omega : 0 < w),
    Nat.div_eq_of_lt hx]
  omega

/-- The pixel `(x, y)` of the sharpened image: kernel output with the
input's alpha on the interior, transparent black on the border. -/
theorem applySharpen_getPixel (img : Image) (x y : ℕ)
    (hx : x < img.width) (hy : y < img.height) :
    getPixel (applySharpen img) x y =
      if 1 ≤ x ∧ x + 1 < img.width ∧ 1 ≤ y ∧ y + 1 < img.height then
        Pixel.mk (sharpChan img x y Pixel.r) (sharpChan img x y Pixel.g)
          (sharpChan img x y Pixel.b) (getPixel img x y).a
      else zeroPixel := by
  show ((List.range (img.width * img.height)).map _).getD (y * img.width + x) zeroPixel = _
  rw [rangeMap_getD _ _ _ (index_lt img.width img.height x y hx hy)]
  rw [index_decode_x img.width x y hx, index_decode_y img.width x y hx]

theorem map_getD_of_lt (f : Pixel → Pixel) (l : List Pixel) (i : ℕ) (hi : i < l.length) :
    (l.map f).getD i zeroPixel = f (l.getD i zeroPixel) := by
  rw [List.getD_eq_getElem?_getD, List.getD_eq_getElem?_getD, List.getElem?_map,
    List.getElem?_eq_getElem hi]
  rfl

/-! Behaviour of the binarize step per pixel. -/

theorem binarizePixel_binary (C : ℚ) (thr : ℕ) (p : Pixel) :
    ((binarizePixel C thr p).r = 0 ∨ (binarizePixel C thr p).r = 255) ∧
    (binarizePixel C thr p).g = (binarizePixel C thr p).r ∧
    (binarizePixel C thr p).b = (binarizePixel C thr p).r ∧
    (binarizePixel C thr p).a = p.a := by
  unfold binarizePixel
  dsimp only
  split <;> simp

/-- The binarize step agrees with the spec's contrast-stretch formula. -/
theorem binarizePixel_spec (C : ℚ) (thr : ℕ) (p : Pixel) :
    binarizePixel C thr p =
      Pixel.mk (if (thr : ℚ) < specEnhanced C (p.r : ℚ) then 255 else 0)
        (if (thr : ℚ) < specEnhanced C (p.r : ℚ) then 255 else 0)
        (if (thr : ℚ) < specEnhanced C (p.r : ℚ) then 255 else 0) p.a := rfl

/-- At the default contrast level 1.5 and threshold 0, greys up to 152
binarize to white. -/
theorem binarizePixel_white (p : Pixel) (h2 : p.r ≤ 152) :
    binarizePixel (3/2) 0 p = Pixel.mk 255 255 255 p.a := by
  unfold binarizePixel
  dsimp only
  split
  · rfl
  · rename_i hcond
    exfalso
    apply hcond
    refine lt_min (by norm_num) (lt_max_iff.mpr (Or.inr ?_))
    have hvq : ((p.r : ℕ) : ℚ) ≤ 152 := by exact_mod_cast h2
    nlinarith [hvq]

/-- At the default contrast level 1.5 and threshold 0, greys from 153 up
binarize to black: the contrast factor `(259·(1.5·255+255))/(255·(259−1.5·255))`
is negative. -/
theorem binarizePixel_black (p : Pixel) (h : 153 ≤ p.r) :
    binarizePixel (3/2) 0 p = Pixel.mk 0 0 0 p.a := by
  unfold binarizePixel
  dsimp only
  split
  · rename_i hcond
    exfalso
    have hvq : (153 : ℚ) ≤ ((p.r : ℕ) : ℚ) := by exact_mod_cast h
    have h1 : ((0:ℕ) : ℚ) <
        max 0 (259 * ((3:ℚ)/2 * 255 + 255) / (255 * (259 - (3:ℚ)/2 * 255)) *
          (((p.r : ℕ) : ℚ) - 128) + 128) :=
      lt_of_lt_of_le hcond (min_le_right _ _)
    push_cast at h1
    rcases lt_max_iff.mp h1 with h2 | h2
    · exact absurd h2 (lt_irrefl 0)
    · nlinarith [hvq]
  · rfl

/-! Behaviour of the skew detector on an image without dark pixels. -/

theorem skewProjection_no_dark (tanDeg : ℚ → ℚ) (img : Image)
    (hlen : img.data.length = img.width * img.height)
    (hbright : ∀ p ∈ img.data, 128 ≤ p.r) (angle : ℚ) (j : ℕ) :
    skewProjection tanDeg img angle j = 0 := by
  unfold skewProjection
  apply List.countP_eq_zero.mpr
  intro idx hidx
  simp only [List.mem_range] at hidx
  have hxy : (idx / img.width) * img.width + idx % img.width = idx := by
    rw [Nat.add_comm, Nat.mul_comm]
    exact Nat.mod_add_div idx img.width
  have hmem : getPixel img (idx % img.width) (idx / img.width) ∈ img.data := by
    unfold getPixel
    rw [hxy, List.getD_eq_getElem?_getD, List.getElem?_eq_getElem (by omega)]
    exact List.getElem_mem _
  have hge := hbright _ hmem
  simp only [decide_eq_true_eq, not_and]
  intro hdark
  omega

theorem skewVariance_no_dark (tanDeg : ℚ → ℚ) (img : Image)
    (hlen : img.data.length = img.width * img.height)
    (hbright : ∀ p ∈ img.data, 128 ≤ p.r) (angle : ℚ) :
    skewVariance tanDeg img angle = 0 := by
  unfold skewVariance
  have hp0 : ∀ j, skewProjection tanDeg img angle j = 0 :=
    fun j => skewProjection_no_dark tanDeg img hlen hbright angle j
  simp [hp0]

/-- An image with no dark pixels keeps the initial best angle 0: every
projection is empty, every variance is 0, and `variance > maxVariance`
never fires. -/
theorem detectSkewAngle_no_dark (tanDeg : ℚ → ℚ) (img : Image)
    (hlen : img.data.length = img.width * img.height)
    (hbright : ∀ p ∈ img.data, 128 ≤ p.r) :
    detectSkewAngle tanDeg img = 0 := by
  unfold detectSkewAngle
  have hstay : ∀ (L : List ℚ),
      (L.foldl (fun s angle =>
        if s.1 < skewVariance tanDeg img angle then (skewVariance tanDeg img angle, angle)
        else s) ((0 : ℚ), (0 : ℚ))) = ((0 : ℚ), (0 : ℚ)) := by
    intro L
    induction L with
    | nil => rfl
    | cons a L ih =>
      simp only [List.foldl]
      rw [skewVariance_no_dark tanDeg img hlen hbright a]
      rw [if_neg (lt_irrefl 0)]
      exact ih
  dsimp only
  rw [hstay]

/-! The claims. -/

/-- C1 amended: whenever `recognizeTextMultiPass` succeeds, the returned
result is a successful pass result whose score
`confidence * min(1, trimmedTextLength/10)` — with the **trimmed** text
length `text.trim().length`, not the raw length the claim states — is
maximal among all successful passes, and on ties the earliest pass in
plan order is selected (every earlier candidate scores strictly less,
every later candidate at most as much); in particular, among synthetic
results with (confidence 95, length 1), (60, 50), (80, 20), whose texts
carry no whitespace, the third is selected. -/
theorem claim_c1 :
    (∀ {Img : Type} (engine : Img → Option EngineOut) (pre dsk : Img → Img)
      (rot : ℕ → Img → Img) (img : Img) (tryPre tryRot : Bool) (b : RecogResult),
      recognizeTextMultiPass engine pre dsk rot img tryPre tryRot = Except.ok b →
      ∃ l1 l2, multiPassCandidates engine pre dsk rot img tryPre tryRot = l1 ++ b :: l2 ∧
        (∀ x ∈ l1, score x < score b) ∧ (∀ x ∈ l2, score x ≤ score b)) ∧
    bestOf csR1 [csR2, csR3] = csR3 := by
  constructor
  · intro Img engine pre dsk rot img tryPre tryRot b hb
    cases hc : multiPassCandidates engine pre dsk rot img tryPre tryRot with
    | nil =>
      simp only [recognizeTextMultiPass, hc] at hb
      simp at hb
    | cons r rs =>
      simp only [recognizeTextMultiPass, hc, Except.ok.injEq] at hb
      subst hb
      obtain ⟨l1, l2, heq, h1, h2⟩ := bestOf_split r rs
      exact ⟨l1, l2, heq, h1, h2⟩
  · have h1 : trimmedLength "a" = 1 := by decide
    have h2 : trimmedLength ("xxxxxxxxxxxxxxxxxxxxxxxxxxxxxxxxxxxxxxxxxxxxxxxxxx") = 50 := by decide
    have h3 : trimmedLength ("xxxxxxxxxxxxxxxxxxxx") = 20 := by decide
    have s1 : score csR1 = 19/2 := by
      simp [score, csR1, h1]
      norm_num [min_def]
    have s2 : score csR2 = 60 := by
      simp [score, csR2, h2]
      norm_num [min_def]
    have s3 : score csR3 = 80 := by
      simp [score, csR3, h3]
      norm_num [min_def]
    have hA : (19:ℚ)/2 < 60 := by norm_num
    have hB : (60:ℚ) < 80 := by norm_num
    simp [bestOf, List.foldl, s1, s2, s3, hA, hB]

/-- C1 counterexample: the claim's score formula uses the raw text
length, but the code trims first (`r.text?.trim().length`), and the two
select different winners.  With two successful passes — "Original"
returning confidence 90 with text "ab" plus 8 trailing spaces, and
"Preprocessed" returning confidence 60 with 10 non-blank characters —
the call returns the second result, although under the claim's formula
the first scores 90 and the second only 60: the returned result does not
maximize `confidence × min(1, textLength/10)` as the claim states. -/
theorem claim_c1_counterexample :
    multiPassCandidates csEngineC1 csPre csDsk csRot 0 true false = [csRPad, csRTen] ∧
    recognizeTextMultiPass csEngineC1 csPre csDsk csRot 0 true false = Except.ok csRTen ∧
    specScore csRTen < specScore csRPad := by
  have hpadT : trimmedLength ("ab        ") = 2 := by decide
  have htenT : trimmedLength ("cccccccccc") = 10 := by decide
  have hpadL : ("ab        " : String).length = 10 := by decide
  have htenL : ("cccccccccc" : String).length = 10 := by decide
  have sPad : score csRPad = 18 := by
    simp [score, csRPad, hpadT]
    norm_num [min_def]
  have sTen : score csRTen = 60 := by
    simp [score, csRTen, htenT]
  have hc : multiPassCandidates csEngineC1 csPre csDsk csRot 0 true false =
      [csRPad, csRTen] := rfl
  refine ⟨hc, ?_, ?_⟩
  · have hlt : (18:ℚ) < 60 := by norm_num
    simp only [recognizeTextMultiPass, hc]
    simp [bestOf, List.foldl, sPad, sTen, hlt]
  · have vPad : specScore csRPad = 90 := by
      simp [specScore, csRPad, hpadL]
    have vTen : specScore csRTen = 60 := by
      simp [specScore, csRTen, htenL]
    rw [vPad, vTen]
    norm_num

/-- C1 witness: with an always-succeeding engine the single "Original"
pass is returned, so the candidate list is nonempty. -/
theorem claim_c1_witness :
    multiPassCandidates csEngineOk csPre csDsk csRot 0 false false ≠ [] := by
  obtain ⟨l1, l2, heq, h1, h2⟩ :=
    claim_c1.1 csEngineOk csPre csDsk csRot 0 false false
      (labeled ("Original") (EngineOut.mk "abcdefghij" 50)) rfl
  rw [heq]
  simp

/-- C2: a pass whose engine invocation throws is simply omitted from the
candidate list; `recognizeTextMultiPass` fails with `AllPassesFailedError`
(and returns no partial result) exactly when every planned pass fails, and
whenever some pass succeeds the call returns a result. -/
theorem claim_c2 :
    ∀ {Img : Type} (engine : Img → Option EngineOut) (pre dsk : Img → Img)
      (rot : ℕ → Img → Img) (img : Img) (tryPre tryRot : Bool),
    (recognizeTextMultiPass engine pre dsk rot img tryPre tryRot =
        Except.error OcrError.allPassesFailed ↔
      (engine img = none ∧
        (tryPre = true → engine (pre img) = none ∧ engine (dsk (pre img)) = none) ∧
        (tryRot = true → engine (rot 90 img) = none ∧ engine (rot 180 img) = none ∧
          engine (rot 270 img) = none))) ∧
    (multiPassCandidates engine pre dsk rot img tryPre tryRot ≠ [] →
      ∃ b, recognizeTextMultiPass engine pre dsk rot img tryPre tryRot = Except.ok b) := by
  intro Img engine pre dsk rot img tryPre tryRot
  constructor
  · exact (recognizeTextMultiPass_error_iff engine pre dsk rot img tryPre tryRot).trans
      (multiPassCandidates_eq_nil_iff engine pre dsk rot img tryPre tryRot)
  · intro hne
    cases hc : multiPassCandidates engine pre dsk rot img tryPre tryRot with
    | nil => exact absurd hc hne
    | cons r rs => exact ⟨bestOf r rs, by simp [recognizeTextMultiPass, hc]⟩

/-- C2 witness: an engine stub that always throws makes every pass fail
and the invocation returns `AllPassesFailedError`. -/
theorem claim_c2_witness :
    recognizeTextMultiPass csEngineFail csPre csDsk csRot 0 true true =
      Except.error OcrError.allPassesFailed :=
  (claim_c2 csEngineFail csPre csDsk csRot 0 true true).1.mpr
    ⟨rfl, fun _ => ⟨rfl, rfl⟩, fun _ => ⟨rfl, rfl, rfl⟩⟩

/-- C3: `calculateOtsuThreshold` returns an integer threshold in `[0,255]`
whose inter-class variance `wB*wF*(mB-mF)^2` (taken as 0 on the candidates
where one class is empty, which the loop never records) is maximal over
the candidates `0..255`, and every lower candidate has strictly smaller
variance, so ties go to the lowest threshold reached in ascending order. -/
theorem claim_c3 (data : List Pixel) :
    calculateOtsuThreshold data ≤ 255 ∧
    (∀ i, i < 256 → interVar (histR data) data.length (histSum data) i ≤
      interVar (histR data) data.length (histSum data) (calculateOtsuThreshold data)) ∧
    (∀ j, j < calculateOtsuThreshold data →
      interVar (histR data) data.length (histSum data) j <
      interVar (histR data) data.length (histSum data) (calculateOtsuThreshold data)) :=
  otsu_char data

/-- C3 witness at the two-spike buffer and candidate 3. -/
theorem claim_c3_witness :
    calculateOtsuThreshold csTwoSpike ≤ 255 ∧
    interVar (histR csTwoSpike) csTwoSpike.length (histSum csTwoSpike) 3 ≤
      interVar (histR csTwoSpike) csTwoSpike.length (histSum csTwoSpike)
        (calculateOtsuThreshold csTwoSpike) :=
  ⟨(claim_c3 csTwoSpike).1, (claim_c3 csTwoSpike).2.1 3 (by omega)⟩

/-- C4 counterexample: on the bimodal histogram with separated spike peaks
at 100 and 200, the returned threshold is not strictly between the peaks
(it equals the lower peak 100). -/
theorem claim_c4_counterexample :
    ¬(100 < calculateOtsuThreshold csTwoSpike ∧ calculateOtsuThreshold csTwoSpike < 200) := by
  have h : calculateOtsuThreshold csTwoSpike = 100 :=
    otsu_twospike csTwoSpike 100 200 (by omega) (by omega) (by decide) (by decide) (by decide)
  omega

/-- C4 amended: for a bimodal histogram consisting of two separated spike
peaks at `a < b` (all samples at `a` or at `b`, both populated), the
threshold equals the lower peak `a`; hence it lies between the peaks only
in the weak sense `a ≤ t < b`, not strictly. -/
theorem claim_c4_amended (l : List Pixel) (a b : ℕ) (hab : a < b) (hb : b ≤ 255)
    (hall : ∀ p ∈ l, p.r = a ∨ p.r = b) (hna : 0 < histR l a) (hnb : 0 < histR l b) :
    calculateOtsuThreshold l = a ∧
    a ≤ calculateOtsuThreshold l ∧ calculateOtsuThreshold l < b := by
  have h := otsu_twospike l a b hab hb hall hna hnb
  exact ⟨h, le_of_eq h.symm, h ▸ hab⟩

/-- C4 witness at the concrete two-spike buffer. -/
theorem claim_c4_witness :
    calculateOtsuThreshold csTwoSpike = 100 ∧
    100 ≤ calculateOtsuThreshold csTwoSpike ∧ calculateOtsuThreshold csTwoSpike < 200 :=
  claim_c4_amended csTwoSpike 100 200 (by omega) (by omega) (by decide) (by decide) (by decide)

/-- C5 counterexample: on a 3 by 3 constant image the sharpen stage does
not keep the border pixel's input value — the output border pixel is the
zero-initialized `(0,0,0,0)` of the fresh `ImageData`, alpha included. -/
theorem claim_c5_counterexample :
    getPixel (applySharpen csSharpImg) 0 0 ≠ getPixel csSharpImg 0 0 := by
  decide

/-- C5 amended: the sharpen stage keeps the dimensions, applies the kernel
`[[0,-1,0],[-1,5,-1],[0,-1,0]]` per RGB channel clamped to `[0,255]` with
the input's alpha on every interior pixel, and leaves every border pixel
zero (transparent black) — not at its input value. -/
theorem claim_c5_amended (img : Image) (x y : ℕ)
    (hx : x < img.width) (hy : y < img.height) :
    (applySharpen img).width = img.width ∧
    (applySharpen img).height = img.height ∧
    getPixel (applySharpen img) x y =
      (if 1 ≤ x ∧ x + 1 < img.width ∧ 1 ≤ y ∧ y + 1 < img.height then
        Pixel.mk (sharpChan img x y Pixel.r) (sharpChan img x y Pixel.g)
          (sharpChan img x y Pixel.b) (getPixel img x y).a
      else zeroPixel) :=
  ⟨rfl, rfl, applySharpen_getPixel img x y hx hy⟩

/-- C5 witness at the interior pixel (1,1) of the 3 by 3 test image. -/
theorem claim_c5_witness :
    getPixel (applySharpen csSharpImg) 1 1 =
      (if 1 ≤ 1 ∧ 1 + 1 < csSharpImg.width ∧ 1 ≤ 1 ∧ 1 + 1 < csSharpImg.height then
        Pixel.mk (sharpChan csSharpImg 1 1 Pixel.r) (sharpChan csSharpImg 1 1 Pixel.g)
          (sharpChan csSharpImg 1 1 Pixel.b) (getPixel csSharpImg 1 1).a
      else zeroPixel) :=
  (claim_c5_amended csSharpImg 1 1 (by decide) (by decide)).2.2

/-- C6 counterexample: with rotations and preprocessing both enabled but
only the "Original" pass succeeding, the rotation passes are applied to
the original image even though a preprocessed image is available. -/
theorem claim_c6_counterexample :
    rotationBase csEngine0 csPre csDsk 0 true ≠ csPre 0 := by
  decide

/-- C6 amended: the rotation passes are applied to the freshly
preprocessed image exactly when strictly more than one of the earlier
passes succeeded (`results.length > 1`); otherwise — even when
preprocessing ran and a preprocessed image exists — they are applied to
the original image. -/
theorem claim_c6_amended :
    ∀ {Img : Type} (engine : Img → Option EngineOut) (pre dsk : Img → Img)
      (rot : ℕ → Img → Img) (img : Img) (tryPre : Bool),
    rotationBase engine pre dsk img tryPre =
      (if 1 < successCount engine pre dsk img tryPre then pre img else img) ∧
    multiPassCandidates engine pre dsk rot img tryPre true =
      earlyResults engine pre dsk img tryPre ++
        ([90, 180, 270].filterMap (fun d =>
          (engine (rot d (rotationBase engine pre dsk img tryPre))).map
            (labeled ("Rotated " ++ toString d)))) := by
  intro Img engine pre dsk rot img tryPre
  exact ⟨rotationBase_eq engine pre dsk img tryPre, rfl⟩

/-- C7: when the detected skew angle is below the 0.5 degree threshold,
`deskewImage` returns the input buffer itself — same dimensions,
pixel-identical content. -/
theorem claim_c7 (tanDeg sinDeg cosDeg : ℚ → ℚ)
    (resample : Image → ℚ → ℕ → ℕ → List Pixel) (img : Image)
    (h : |detectSkewAngle tanDeg img| < 1/2) :
    deskewImage tanDeg sinDeg cosDeg resample img = img := by
  unfold deskewImage
  dsimp only
  rw [if_pos h]

/-- C7 witness: a white image has no dark pixels, its detected skew angle
is 0, and deskewing it is a no-op. -/
theorem claim_c7_witness :
    deskewImage csZeroFun csZeroFun csZeroFun csResample4 csWhiteImg = csWhiteImg := by
  apply claim_c7
  rw [detectSkewAngle_no_dark csZeroFun csWhiteImg (by decide) (by decide)]
  norm_num

/-- C8: `rotateImage` swaps the output dimensions exactly for degrees in
`{90, -90, 270}` and keeps them otherwise; rotating by 90 and then by 270
restores the original width and height. -/
theorem claim_c8 (resample resample2 : Image → ℚ → List Pixel) (img : Image) (degrees : ℚ) :
    ((rotateImage resample img degrees).width =
      if degrees = 90 ∨ degrees = -90 ∨ degrees = 270 then img.height else img.width) ∧
    ((rotateImage resample img degrees).height =
      if degrees = 90 ∨ degrees = -90 ∨ degrees = 270 then img.width else img.height) ∧
    (rotateImage resample2 (rotateImage resample img 90) 270).width = img.width ∧
    (rotateImage resample2 (rotateImage resample img 90) 270).height = img.height := by
  have h90 : (90:ℚ) = 90 ∨ (90:ℚ) = -90 ∨ (90:ℚ) = 270 := Or.inl rfl
  have h270 : (270:ℚ) = 90 ∨ (270:ℚ) = -90 ∨ (270:ℚ) = 270 := Or.inr (Or.inr rfl)
  refine ⟨?_, ?_, ?_, ?_⟩
  · by_cases hc : degrees = 90 ∨ degrees = -90 ∨ degrees = 270 <;>
      simp [rotateImage, hc]
  · by_cases hc : degrees = 90 ∨ degrees = -90 ∨ degrees = 270 <;>
      simp [rotateImage, hc]
  · simp [rotateImage, h90, h270]
  · simp [rotateImage, h90, h270]

/-- C9: the contrast-and-binarize stage computes
`enhanced = clamp(factor*(gray-128)+128, 0, 255)` with
`factor = (259*(C*255+255))/(255*(259-C*255))`, sets R, G and B to 255
when `enhanced > threshold` and 0 otherwise, so its output — and the
output of the whole `preprocessImage` pipeline, which ends with this
stage — holds only the values 0 and 255 in every colour channel of every
pixel (the alpha channel is copied unchanged). -/
theorem claim_c9 (C : ℚ) (thr : ℕ) (img : Image) :
    (∀ p ∈ (contrastAndBinarize C thr img).data,
      (p.r = 0 ∨ p.r = 255) ∧ p.g = p.r ∧ p.b = p.r) ∧
    (∀ x y, x < img.width → y < img.height → img.data.length = img.width * img.height →
      getPixel (contrastAndBinarize C thr img) x y =
        Pixel.mk (if (thr : ℚ) < specEnhanced C ((getPixel img x y).r : ℚ) then 255 else 0)
          (if (thr : ℚ) < specEnhanced C ((getPixel img x y).r : ℚ) then 255 else 0)
          (if (thr : ℚ) < specEnhanced C ((getPixel img x y).r : ℚ) then 255 else 0)
          (getPixel img x y).a) ∧
    (∀ (opts : PreprocessOptions), ∀ p ∈ (preprocessImage img opts).data,
      (p.r = 0 ∨ p.r = 255) ∧ p.g = p.r ∧ p.b = p.r) := by
  have hbin : ∀ (C' : ℚ) (thr' : ℕ) (img' : Image),
      ∀ p ∈ (contrastAndBinarize C' thr' img').data,
        (p.r = 0 ∨ p.r = 255) ∧ p.g = p.r ∧ p.b = p.r := by
    intro C' thr' img' p hp
    simp only [contrastAndBinarize, List.mem_map] at hp
    obtain ⟨q, hq, rfl⟩ := hp
    obtain ⟨h1, h2, h3, h4⟩ := binarizePixel_binary C' thr' q
    exact ⟨h1, h2, h3⟩
  refine ⟨hbin C thr img, ?_, ?_⟩
  · intro x y hx hy hlen
    show (img.data.map (binarizePixel C thr)).getD (y * img.width + x) zeroPixel = _
    rw [map_getD_of_lt _ _ _ (by rw [hlen]; exact index_lt img.width img.height x y hx hy)]
    exact binarizePixel_spec C thr _
  · intro opts p hp
    unfold preprocessImage at hp
    exact hbin _ _ _ p hp

/-- C9 witness at a 1 by 1 image whose pixel has R 200 and alpha 7. -/
theorem claim_c9_witness :
    ((binarizePixel (3/2) 0 (Pixel.mk 200 0 0 7)).r = 0 ∨
      (binarizePixel (3/2) 0 (Pixel.mk 200 0 0 7)).r = 255) ∧
    (binarizePixel (3/2) 0 (Pixel.mk 200 0 0 7)).g =
      (binarizePixel (3/2) 0 (Pixel.mk 200 0 0 7)).r ∧
    (binarizePixel (3/2) 0 (Pixel.mk 200 0 0 7)).b =
      (binarizePixel (3/2) 0 (Pixel.mk 200 0 0 7)).r :=
  (claim_c9 (3/2) 0 csOnePix).1 _ (by simp [contrastAndBinarize, csOnePix])

/-- C10 counterexample: on a uniform intensity-200 buffer the Otsu
threshold is 0, but binarizing with that threshold at the default
contrast level 1.5 yields all-black, not all-white — the contrast factor
is negative, so bright greys map below the threshold. -/
theorem claim_c10_counterexample :
    calculateOtsuThreshold csUniform200.data = 0 ∧
    ¬(∀ p ∈ (contrastAndBinarize (3/2) (calculateOtsuThreshold csUniform200.data)
        csUniform200).data, p.r = 255 ∧ p.g = 255 ∧ p.b = 255) := by
  have h0 : calculateOtsuThreshold csUniform200.data = 0 :=
    otsu_uniform _ 200 (by decide)
  refine ⟨h0, fun hcontra => ?_⟩
  have hmem : binarizePixel (3/2) 0 (greyPix 200) ∈
      (contrastAndBinarize (3/2) (calculateOtsuThreshold csUniform200.data)
        csUniform200).data := by
    rw [h0]
    simp [contrastAndBinarize, csUniform200]
  have hall := hcontra _ hmem
  rw [binarizePixel_black (greyPix 200) (by norm_num [greyPix])] at hall
  simp at hall

/-- C10 amended: for every uniform input of intensity `v` the Otsu
threshold is 0 (no variance is ever recorded); binarizing with that
threshold at the default contrast level 1.5 yields all-white only for
`1 ≤ v ≤ 152`, while `v ≥ 153` yields all-black, because the contrast
factor at level 1.5 is negative. -/
theorem claim_c10_amended (l : List Pixel) (v : ℕ) (hall : ∀ p ∈ l, p.r = v) :
    calculateOtsuThreshold l = 0 ∧
    (1 ≤ v → v ≤ 152 →
      ∀ p ∈ (contrastAndBinarize (3/2) (calculateOtsuThreshold l)
          (Image.mk l.length 1 l)).data,
        p.r = 255 ∧ p.g = 255 ∧ p.b = 255) ∧
    (153 ≤ v →
      ∀ p ∈ (contrastAndBinarize (3/2) (calculateOtsuThreshold l)
          (Image.mk l.length 1 l)).data,
        p.r = 0 ∧ p.g = 0 ∧ p.b = 0) := by
  have h0 : calculateOtsuThreshold l = 0 := otsu_uniform l v hall
  refine ⟨h0, ?_, ?_⟩
  · intro h1 h152 p hp
    rw [h0] at hp
    simp only [contrastAndBinarize, List.mem_map] at hp
    obtain ⟨q, hq, rfl⟩ := hp
    rw [binarizePixel_white q (by rw [hall q hq]; exact h152)]
    exact ⟨rfl, rfl, rfl⟩
  · intro h153 p hp
    rw [h0] at hp
    simp only [contrastAndBinarize, List.mem_map] at hp
    obtain ⟨q, hq, rfl⟩ := hp
    rw [binarizePixel_black q (by rw [hall q hq]; exact h153)]
    exact ⟨rfl, rfl, rfl⟩

/-- C10 witness at the uniform intensity-100 buffer: threshold 0 and an
all-white binarization of its first pixel. -/
theorem claim_c10_witness :
    calculateOtsuThreshold csUniform100.data = 0 ∧
    (binarizePixel (3/2) (calculateOtsuThreshold csUniform100.data) (greyPix 100)).r = 255 ∧
    (binarizePixel (3/2) (calculateOtsuThreshold csUniform100.data) (greyPix 100)).g = 255 ∧
    (binarizePixel (3/2) (calculateOtsuThreshold csUniform100.data) (greyPix 100)).b = 255 := by
  have h := claim_c10_amended csUniform100.data 100 (by decide)
  refine ⟨h.1, ?_⟩
  exact h.2.1 (by omega) (by omega) _ (by simp [contrastAndBinarize, csUniform100])

end BookScanner
